import Mathlib

/-!
Verification of the CoRal data-curation pipeline.

The definitions below are shallow embeddings of the Python functions in
`src/coral/data.py` and `src/scripts/build_coral_asr.py`:

* `filter_example`     — validation/duration filter (data.py, lines 375-411)
* `filter_dataset`     — the `Dataset` branch of the dataset filter together
                         with the removed-samples count it logs
                         (data.py, lines 302-316)
* `process_example`    — the text-normalisation pipeline
                         (data.py, lines 528-586), with its conversion table
                         (data.py, lines 462-497)
* `resolve_probabilities` — the interleaving-probability handling
                         (data.py, lines 145-161), floats modelled as rationals
* `split_dataset` and the `examples_belong_to_*` predicates
                         (build_coral_asr.py, lines 277-355)
* `interleaveRun`      — the multi-source interleaver (modelled from the spec,
                         §4.5, since the interleaving itself is performed by
                         the external `datasets.interleave_datasets` call at
                         data.py, lines 163-169)

Machine integers are modelled as `Nat`, Python floats as `ℚ`, Python strings
as `List Char`, Python dictionaries of examples as structures.
-/

/-! ### Validation filter (`data.py`, `filter_example`) -/

/-- The audio payload of a sample: `audio["array"].shape[0]` (the number of
samples in the waveform) and `audio["sampling_rate"]`. -/
structure AudioInfo where
  array_len : Nat
  sampling_rate : Nat
deriving DecidableEq, Repr

/-- A record as seen by `filter_example`: the audio column plus the optional
`"validated"` field (`none` models a sample dictionary without a
`"validated"` key). -/
structure Sample where
  audio : AudioInfo
  validated : Option String
deriving DecidableEq, Repr

/-- Embedding of `filter_example` (`data.py`, lines 375-411).  Returns
whether the sample is kept.  The Python code drops a sample when
`audio["array"].shape[0] <= audio["sampling_rate"] * min_seconds_per_example`
or `>= audio["sampling_rate"] * max_seconds_per_example`, then applies the
validation-status checks when the `"validated"` key is present. -/
def filter_example (sample : Sample) (remove_maybe_validated : Bool)
    (min_seconds_per_example max_seconds_per_example : Nat) : Bool :=
  if sample.audio.array_len ≤ sample.audio.sampling_rate * min_seconds_per_example then
    false
  else if sample.audio.sampling_rate * max_seconds_per_example ≤ sample.audio.array_len then
    false
  else
    match sample.validated with
    | none => true
    | some v =>
      if remove_maybe_validated && (v == "rejected" || v == "maybe") then false
      else if v == "rejected" then false
      else true

/-- Embedding of the `Dataset` branch of `filter_dataset` (`data.py`,
lines 302-316): returns the filtered dataset together with the
`num_samples_removed` value that is logged.  The source computes
`num_samples_removed = num_samples_before - len(dataset)` — note that it
reads `len(dataset)`, the unfiltered input, not `len(filtered)`. -/
def filter_dataset (dataset : List Sample) (remove_maybe_validated : Bool)
    (min_seconds_per_example max_seconds_per_example : Nat) : List Sample × Nat :=
  let num_samples_before := dataset.length
  let filtered := dataset.filter fun s =>
    filter_example s remove_maybe_validated min_seconds_per_example max_seconds_per_example
  let num_samples_removed := num_samples_before - dataset.length
  (filtered, num_samples_removed)

/-! ### Interleaving probabilities (`data.py`, lines 145-161) -/

/-- Embedding of the probability handling in `load_data_for_finetuning`
(`data.py`, lines 145-161), for `n` loaded datasets (the enclosing block runs
when `n > 1`).  Python floats are modelled as rationals.  When
`config.dataset_probabilities` is `None`, a uniform list is built and its
last entry replaced by `1 - sum(probabilities[:-1])`; otherwise a sum check
raises `ValueError`.  The boolean records whether the warning about uniform
weighting over-representing small sources is emitted (the source emits it,
on the main process, exactly when the probabilities are omitted and more
than one dataset is loaded). -/
def resolve_probabilities (dataset_probabilities : Option (List ℚ)) (n : Nat) :
    Except String (List ℚ × Bool) :=
  let warned := dataset_probabilities.isNone && decide (1 < n)
  match dataset_probabilities with
  | none =>
    let probabilities := List.replicate n ((1 : ℚ) / n)
    let probabilities := probabilities.set (n - 1) (1 - (probabilities.take (n - 1)).sum)
    Except.ok (probabilities, warned)
  | some probabilities =>
    if probabilities.sum ≠ 1 then
      Except.error "Dataset probabilities must sum to 1"
    else
      Except.ok (probabilities, warned)

/-! ### Corpus splitting (`build_coral_asr.py`, lines 277-355)

The module-level `VALIDATION_SET_SPEAKER_IDS` and `TEST_SET_SPEAKER_IDS`
lists are passed as explicit parameters here. -/

/-- A record as seen by the splitter: only its `id_speaker` column matters,
the transcript stands in for the remaining payload. -/
structure Example where
  id_speaker : String
  text : String
deriving DecidableEq, Repr

/-- Embedding of `examples_belong_to_train`: one boolean per example of a
batch, true when the speaker is not in the concatenation of the validation
and test speaker-id lists. -/
def examples_belong_to_train (valIds testIds : List String) (speakers : List String) :
    List Bool :=
  speakers.map fun speaker_id => !(valIds ++ testIds).contains speaker_id

/-- Embedding of `examples_belong_to_val`. -/
def examples_belong_to_val (valIds : List String) (speakers : List String) : List Bool :=
  speakers.map fun speaker_id => valIds.contains speaker_id

/-- Embedding of `examples_belong_to_test`. -/
def examples_belong_to_test (testIds : List String) (speakers : List String) : List Bool :=
  speakers.map fun speaker_id => testIds.contains speaker_id

/-- `Dataset.filter(function=…, batched=True)`: the batch of speaker ids is
handed to the predicate and the rows whose flag is true are kept. -/
def filterBatched (pred : List String → List Bool) (dataset : List Example) : List Example :=
  (dataset.zip (pred (dataset.map Example.id_speaker))).filterMap fun eb =>
    if eb.2 then some eb.1 else none

/-- The train split produced inside `split_dataset`. -/
def trainSplit (valIds testIds : List String) (dataset : List Example) : List Example :=
  filterBatched (examples_belong_to_train valIds testIds) dataset

/-- The validation split produced inside `split_dataset`. -/
def valSplit (valIds : List String) (dataset : List Example) : List Example :=
  filterBatched (examples_belong_to_val valIds) dataset

/-- The test split produced inside `split_dataset`. -/
def testSplit (testIds : List String) (dataset : List Example) : List Example :=
  filterBatched (examples_belong_to_test testIds) dataset

/-- Embedding of `split_dataset` (`build_coral_asr.py`, lines 277-308).
Returns `none` for an empty input dataset; otherwise the mapping always
contains `train`, and contains `val`/`test` exactly when those filtered
splits are nonempty.  The Python function body contains no `raise`
statement, so the model is total. -/
def split_dataset (valIds testIds : List String) (dataset : List Example) :
    Option (List (String × List Example)) :=
  if dataset.length = 0 then
    none
  else
    let train_dataset := trainSplit valIds testIds dataset
    let splits := [("train", train_dataset)]
    let val_dataset := valSplit valIds dataset
    let splits := if 0 < val_dataset.length then splits ++ [("val", val_dataset)] else splits
    let test_dataset := testSplit testIds dataset
    let splits := if 0 < test_dataset.length then splits ++ [("test", test_dataset)] else splits
    some splits

/-! ### Theorems for the validation filter -/

/-- Membership in a batched filter over a speaker predicate. -/
theorem mem_filterBatched (f : String → Bool) (dataset : List Example) (e : Example) :
    e ∈ filterBatched (fun sps => sps.map f) dataset ↔ e ∈ dataset ∧ f e.id_speaker = true := by
  induction dataset with
  | nil => simp [filterBatched]
  | cons a tl ih =>
    simp only [filterBatched] at ih ⊢
    simp only [List.map_cons, List.zip_cons_cons, List.filterMap_cons]
    cases h : f a.id_speaker with
    | true =>
      simp only [ite_true, List.mem_cons, ih]
      constructor
      · rintro (rfl | ⟨hm, hf⟩)
        · exact ⟨Or.inl rfl, h⟩
        · exact ⟨Or.inr hm, hf⟩
      · rintro ⟨rfl | hm, hf⟩
        · exact Or.inl rfl
        · exact Or.inr ⟨hm, hf⟩
    | false =>
      simp only [Bool.false_eq_true, ite_false, ih, List.mem_cons]
      constructor
      · rintro ⟨hm, hf⟩
        exact ⟨Or.inr hm, hf⟩
      · rintro ⟨rfl | hm, hf⟩
        · rw [h] at hf
          exact absurd hf (by simp)
        · exact ⟨hm, hf⟩

/-- C1: the Validation Filter keeps a record with respect to duration iff
`min_seconds_per_example < duration < max_seconds_per_example`, where
`duration` is the audio sample count divided by the sampling rate; a record
whose duration is `≤` the minimum or `≥` the maximum is dropped, so both
boundary values themselves are dropped. -/
theorem filter_example_duration_bounds (s : Sample) (rm : Bool) (minS maxS : Nat)
    (hrate : 0 < s.audio.sampling_rate) :
    (((s.audio.array_len : ℚ) / s.audio.sampling_rate ≤ minS ∨
        (maxS : ℚ) ≤ (s.audio.array_len : ℚ) / s.audio.sampling_rate) →
      filter_example s rm minS maxS = false) ∧
    (s.validated = none →
      (filter_example s rm minS maxS = true ↔
        ((minS : ℚ) < (s.audio.array_len : ℚ) / s.audio.sampling_rate ∧
          (s.audio.array_len : ℚ) / s.audio.sampling_rate < maxS))) := by
  have hq : (0 : ℚ) < (s.audio.sampling_rate : ℚ) := by exact_mod_cast hrate
  have hmin : (s.audio.array_len : ℚ) / s.audio.sampling_rate ≤ minS ↔
      s.audio.array_len ≤ s.audio.sampling_rate * minS := by
    rw [div_le_iff₀ hq]
    constructor
    · intro h
      exact_mod_cast h.trans_eq (mul_comm _ _)
    · intro h
      calc (s.audio.array_len : ℚ) ≤ (s.audio.sampling_rate : ℚ) * minS := by exact_mod_cast h
        _ = (minS : ℚ) * s.audio.sampling_rate := mul_comm _ _
  have hmax : (maxS : ℚ) ≤ (s.audio.array_len : ℚ) / s.audio.sampling_rate ↔
      s.audio.sampling_rate * maxS ≤ s.audio.array_len := by
    rw [le_div_iff₀ hq]
    constructor
    · intro h
      calc s.audio.sampling_rate * maxS = maxS * s.audio.sampling_rate := Nat.mul_comm _ _
        _ ≤ s.audio.array_len := by exact_mod_cast h
    · intro h
      calc (maxS : ℚ) * s.audio.sampling_rate = (s.audio.sampling_rate : ℚ) * maxS :=
            mul_comm _ _
        _ ≤ s.audio.array_len := by exact_mod_cast h
  constructor
  · intro hdur
    rcases hdur with h | h
    · simp only [filter_example, hmin.mp h, if_pos]
    · rw [hmin] at *
      by_cases h1 : s.audio.array_len ≤ s.audio.sampling_rate * minS
      · simp only [filter_example, h1, if_pos]
      · simp only [filter_example, h1, if_neg, if_false, hmax.mp h, if_pos, ite_false,
          ite_true]
  · intro hv
    simp only [filter_example, hv]
    constructor
    · intro hkeep
      by_cases h1 : s.audio.array_len ≤ s.audio.sampling_rate * minS
      · simp [h1] at hkeep
      · by_cases h2 : s.audio.sampling_rate * maxS ≤ s.audio.array_len
        · simp [h1, h2] at hkeep
        · refine ⟨?_, ?_⟩
          · rw [not_le] at h1
            rw [lt_div_iff₀ hq]
            calc (minS : ℚ) * s.audio.sampling_rate = (s.audio.sampling_rate : ℚ) * minS :=
                  mul_comm _ _
              _ < s.audio.array_len := by exact_mod_cast h1
          · rw [not_le] at h2
            rw [div_lt_iff₀ hq]
            calc (s.audio.array_len : ℚ) < (s.audio.sampling_rate : ℚ) * maxS := by
                  exact_mod_cast h2
              _ = (maxS : ℚ) * s.audio.sampling_rate := mul_comm _ _
    · rintro ⟨hlo, hhi⟩
      have h1 : ¬s.audio.array_len ≤ s.audio.sampling_rate * minS := by
        rw [← hmin, not_le]
        exact hlo
      have h2 : ¬s.audio.sampling_rate * maxS ≤ s.audio.array_len := by
        rw [← hmax, not_le]
        exact hhi
      simp [h1, h2]

/-- Witness for the duration-bounds theorem at a concrete sample:
25 audio samples at rate 10 (duration 2.5 s) with bounds 1 s and 3 s. -/
theorem filter_example_duration_bounds_witness :
    filter_example ⟨⟨25, 10⟩, none⟩ false 1 3 = true ↔
      ((1 : ℚ) < (25 : ℚ) / 10 ∧ (25 : ℚ) / 10 < 3) :=
  (filter_example_duration_bounds ⟨⟨25, 10⟩, none⟩ false 1 3 (by norm_num)).2 rfl

/-- C2: for a record whose duration lies strictly within the bounds,
`remove_maybe_validated = true` drops exactly the records validated as
`"maybe"` or `"rejected"`; `remove_maybe_validated = false` drops exactly
those validated as `"rejected"`; and a record with no `"validated"` field
is never dropped, under either setting. -/
theorem filter_example_validation_policy (s : Sample) (minS maxS : Nat)
    (hlo : s.audio.sampling_rate * minS < s.audio.array_len)
    (hhi : s.audio.array_len < s.audio.sampling_rate * maxS) :
    (filter_example s true minS maxS = false ↔
      (s.validated = some "maybe" ∨ s.validated = some "rejected")) ∧
    (filter_example s false minS maxS = false ↔ s.validated = some "rejected") ∧
    (s.validated = none → ∀ rm : Bool, filter_example s rm minS maxS = true) := by
  have h1 : ¬s.audio.array_len ≤ s.audio.sampling_rate * minS := by omega
  have h2 : ¬s.audio.sampling_rate * maxS ≤ s.audio.array_len := by omega
  refine ⟨?_, ?_, ?_⟩
  · cases hv : s.validated with
    | none => simp [filter_example, h1, h2, hv]
    | some v =>
      simp only [filter_example, h1, ite_false, h2, hv, Bool.true_and, if_neg,
        not_false_eq_true]
      by_cases hr : v = "rejected"
      · subst hr
        simp
      · by_cases hm : v = "maybe"
        · subst hm
          simp
        · have hrb : (v == "rejected") = false := by
            simp [hr]
          have hmb : (v == "maybe") = false := by
            simp [hm]
          simp [hrb, hmb, hr, hm]
  · cases hv : s.validated with
    | none => simp [filter_example, h1, h2, hv]
    | some v =>
      simp only [filter_example, h1, ite_false, h2, hv, Bool.false_and, if_neg,
        not_false_eq_true]
      by_cases hr : v = "rejected"
      · subst hr
        simp
      · have hrb : (v == "rejected") = false := by
          simp [hr]
        simp [hrb, hr]
  · intro hv rm
    simp [filter_example, h1, h2, hv]

/-- Witness for the validation-policy theorem at a concrete sample:
25 audio samples at rate 10, bounds 1 s and 3 s, validated as "maybe". -/
theorem filter_example_validation_policy_witness :
    (filter_example ⟨⟨25, 10⟩, some "maybe"⟩ true 1 3 = false ↔
      ((⟨⟨25, 10⟩, some "maybe"⟩ : Sample).validated = some "maybe" ∨
        (⟨⟨25, 10⟩, some "maybe"⟩ : Sample).validated = some "rejected")) ∧
    (filter_example ⟨⟨25, 10⟩, some "maybe"⟩ false 1 3 = false ↔
      (⟨⟨25, 10⟩, some "maybe"⟩ : Sample).validated = some "rejected") ∧
    ((⟨⟨25, 10⟩, some "maybe"⟩ : Sample).validated = none →
      ∀ rm : Bool, filter_example ⟨⟨25, 10⟩, some "maybe"⟩ rm 1 3 = true) :=
  filter_example_validation_policy ⟨⟨25, 10⟩, some "maybe"⟩ 1 3 (by decide) (by decide)

/-- C5: given disjoint validation and test speaker allow-lists, a record
lands in the val split iff its speaker is in the validation list, in the
test split iff its speaker is in the test list, and in the train split iff
its speaker is in neither; consequently the speaker sets of val and test
are disjoint and no speaker of val or test appears in train. -/
theorem split_membership_and_disjointness (valIds testIds : List String)
    (dataset : List Example) (e : Example)
    (hdisj : ∀ s, s ∈ valIds → s ∉ testIds) :
    (e ∈ valSplit valIds dataset ↔ e ∈ dataset ∧ e.id_speaker ∈ valIds) ∧
    (e ∈ testSplit testIds dataset ↔ e ∈ dataset ∧ e.id_speaker ∈ testIds) ∧
    (e ∈ trainSplit valIds testIds dataset ↔
      e ∈ dataset ∧ e.id_speaker ∉ valIds ∧ e.id_speaker ∉ testIds) ∧
    (e ∈ valSplit valIds dataset →
      ∀ e2 ∈ testSplit testIds dataset, e.id_speaker ≠ e2.id_speaker) ∧
    ((e ∈ valSplit valIds dataset ∨ e ∈ testSplit testIds dataset) →
      ∀ e2 ∈ trainSplit valIds testIds dataset, e.id_speaker ≠ e2.id_speaker) := by
  have hval : ∀ x : Example, x ∈ valSplit valIds dataset ↔
      x ∈ dataset ∧ x.id_speaker ∈ valIds := by
    intro x
    have hdef : valSplit valIds dataset =
        filterBatched (fun sps => sps.map fun sp => valIds.contains sp) dataset := rfl
    rw [hdef, mem_filterBatched]
    simp [List.contains]
  have htest : ∀ x : Example, x ∈ testSplit testIds dataset ↔
      x ∈ dataset ∧ x.id_speaker ∈ testIds := by
    intro x
    have hdef : testSplit testIds dataset =
        filterBatched (fun sps => sps.map fun sp => testIds.contains sp) dataset := rfl
    rw [hdef, mem_filterBatched]
    simp [List.contains]
  have htrain : ∀ x : Example, x ∈ trainSplit valIds testIds dataset ↔
      x ∈ dataset ∧ x.id_speaker ∉ valIds ∧ x.id_speaker ∉ testIds := by
    intro x
    have hdef : trainSplit valIds testIds dataset =
        filterBatched (fun sps => sps.map fun sp => !(valIds ++ testIds).contains sp)
          dataset := rfl
    rw [hdef, mem_filterBatched]
    simp only [List.contains, List.elem_eq_mem, Bool.not_eq_true', decide_eq_false_iff_not,
      List.mem_append, and_congr_right_iff]
    intro _
    tauto
  refine ⟨hval e, htest e, htrain e, ?_, ?_⟩
  · intro hv e2 ht2 heq
    have h1 := (hval e).mp hv
    have h2 := (htest e2).mp ht2
    exact hdisj e.id_speaker h1.2 (heq ▸ h2.2)
  · rintro (hv | ht) e2 htr heq
    · have h1 := (hval e).mp hv
      have h2 := (htrain e2).mp htr
      exact h2.2.1 (heq ▸ h1.2)
    · have h1 := (htest e).mp ht
      have h2 := (htrain e2).mp htr
      exact h2.2.2 (heq ▸ h1.2)

/-- Witness for the split theorem at a concrete dataset of three records and
disjoint allow-lists. -/
theorem split_membership_and_disjointness_witness :
    ((⟨"v1", "a"⟩ : Example) ∈ valSplit ["v1"] [⟨"v1", "a"⟩, ⟨"t1", "b"⟩, ⟨"s1", "c"⟩] ↔
      (⟨"v1", "a"⟩ : Example) ∈ [(⟨"v1", "a"⟩ : Example), ⟨"t1", "b"⟩, ⟨"s1", "c"⟩] ∧
        (⟨"v1", "a"⟩ : Example).id_speaker ∈ ["v1"]) ∧
    ((⟨"v1", "a"⟩ : Example) ∈ testSplit ["t1"] [⟨"v1", "a"⟩, ⟨"t1", "b"⟩, ⟨"s1", "c"⟩] ↔
      (⟨"v1", "a"⟩ : Example) ∈ [(⟨"v1", "a"⟩ : Example), ⟨"t1", "b"⟩, ⟨"s1", "c"⟩] ∧
        (⟨"v1", "a"⟩ : Example).id_speaker ∈ ["t1"]) ∧
    ((⟨"v1", "a"⟩ : Example) ∈
        trainSplit ["v1"] ["t1"] [⟨"v1", "a"⟩, ⟨"t1", "b"⟩, ⟨"s1", "c"⟩] ↔
      (⟨"v1", "a"⟩ : Example) ∈ [(⟨"v1", "a"⟩ : Example), ⟨"t1", "b"⟩, ⟨"s1", "c"⟩] ∧
        (⟨"v1", "a"⟩ : Example).id_speaker ∉ ["v1"] ∧
        (⟨"v1", "a"⟩ : Example).id_speaker ∉ ["t1"]) ∧
    ((⟨"v1", "a"⟩ : Example) ∈ valSplit ["v1"] [⟨"v1", "a"⟩, ⟨"t1", "b"⟩, ⟨"s1", "c"⟩] →
      ∀ e2 ∈ testSplit ["t1"] [(⟨"v1", "a"⟩ : Example), ⟨"t1", "b"⟩, ⟨"s1", "c"⟩],
        (⟨"v1", "a"⟩ : Example).id_speaker ≠ e2.id_speaker) ∧
    (((⟨"v1", "a"⟩ : Example) ∈ valSplit ["v1"] [⟨"v1", "a"⟩, ⟨"t1", "b"⟩, ⟨"s1", "c"⟩] ∨
        (⟨"v1", "a"⟩ : Example) ∈
          testSplit ["t1"] [⟨"v1", "a"⟩, ⟨"t1", "b"⟩, ⟨"s1", "c"⟩]) →
      ∀ e2 ∈ trainSplit ["v1"] ["t1"] [(⟨"v1", "a"⟩ : Example), ⟨"t1", "b"⟩, ⟨"s1", "c"⟩],
        (⟨"v1", "a"⟩ : Example).id_speaker ≠ e2.id_speaker) :=
  split_membership_and_disjointness ["v1"] ["t1"]
    [⟨"v1", "a"⟩, ⟨"t1", "b"⟩, ⟨"s1", "c"⟩] ⟨"v1", "a"⟩ (by decide)

/-- C6: at a dataset whose only record belongs to a validation speaker, the
splitter returns normally with an *empty* `train` split present in the
mapping — no error of any kind is raised, contradicting both the spec and
the function's own docstring, which promise a fatal `ValueError` when no
training samples are found.  (The empty `test` split is indeed omitted.) -/
theorem split_dataset_emits_empty_train :
    split_dataset ["v1"] [] [⟨"v1", "hello"⟩] =
      some [("train", []), ("val", [⟨"v1", "hello"⟩])] := by
  decide

/-- C9: the `Dataset` branch of `filter_dataset` logs a removed-sample count
computed from the *unfiltered* dataset, so it logs 0 even though one of the
two records of this concrete dataset is removed (8000 samples at rate 16000
is 0.5 s, below the 1 s minimum). -/
theorem filter_dataset_logged_count_is_zero :
    (filter_dataset [⟨⟨32000, 16000⟩, none⟩, ⟨⟨8000, 16000⟩, none⟩] false 1 10).2 = 0 ∧
    ([(⟨⟨32000, 16000⟩, none⟩ : Sample), ⟨⟨8000, 16000⟩, none⟩].length -
        (filter_dataset [⟨⟨32000, 16000⟩, none⟩, ⟨⟨8000, 16000⟩, none⟩] false 1 10).1.length)
      = 1 := by
  constructor
  · rfl
  · rfl

/-- C10: `split_dataset` applied to a dataset with zero records returns
`None` — no split mapping and no error. -/
theorem split_dataset_empty_returns_none (valIds testIds : List String) :
    split_dataset valIds testIds [] = none := by
  simp [split_dataset]

/-- C7: with at least two datasets, explicitly supplied probabilities whose
sum is not 1 make loading fail immediately with the `ValueError`; omitted
probabilities yield a uniform distribution whose final weight is adjusted so
the weights sum to exactly 1, together with the over-representation
warning. -/
theorem resolve_probabilities_spec (n : Nat) (hn : 2 ≤ n) (ps : List ℚ) :
    (ps.sum ≠ 1 →
      resolve_probabilities (some ps) n =
        Except.error "Dataset probabilities must sum to 1") ∧
    (∃ qs : List ℚ, resolve_probabilities none n = Except.ok (qs, true) ∧
      qs.sum = 1 ∧ qs.length = n) := by
  have h1n : 1 < n := by omega
  constructor
  · intro h
    simp [resolve_probabilities, h]
  · refine ⟨(List.replicate n ((1 : ℚ) / n)).set (n - 1)
      (1 - ((List.replicate n ((1 : ℚ) / n)).take (n - 1)).sum), ?_, ?_, ?_⟩
    · simp [resolve_probabilities, h1n]
    · have htake : (List.replicate n ((1 : ℚ) / n)).take (n - 1) =
          List.replicate (n - 1) ((1 : ℚ) / n) := by
        rw [List.take_replicate]
        congr 1
        omega
      have hsplit : List.replicate n ((1 : ℚ) / n) =
          List.replicate (n - 1) ((1 : ℚ) / n) ++ [(1 : ℚ) / n] := by
        rw [← List.replicate_succ']
        congr 1
        omega
      rw [htake, hsplit, List.set_append_right _ _ (by simp),
        List.length_replicate, Nat.sub_self, List.set_cons_zero, List.sum_append,
        List.sum_cons, List.sum_nil, List.sum_replicate]
      generalize (n - 1) • ((1 : ℚ) / n) = a
      ring
    · simp

/-- Witness for the probability theorem at two datasets and the supplied
probabilities `[1/3, 1/3]`, whose sum is 2/3. -/
theorem resolve_probabilities_spec_witness :
    (([(1 : ℚ) / 3, 1 / 3].sum ≠ 1 →
      resolve_probabilities (some [(1 : ℚ) / 3, 1 / 3]) 2 =
        Except.error "Dataset probabilities must sum to 1") ∧
    (∃ qs : List ℚ, resolve_probabilities none 2 = Except.ok (qs, true) ∧
      qs.sum = 1 ∧ qs.length = 2)) :=
  resolve_probabilities_spec 2 (by norm_num) [(1 : ℚ) / 3, 1 / 3]

/-! ### Multi-source interleaver

Modelled from the spec: `load_data_for_finetuning` delegates the actual
interleaving (`data.py`, lines 163-169) to the external
`datasets.interleave_datasets` with `stopping_strategy="all_exhausted"`,
whose implementation is not part of this repository.  Spec §4.5: at each
draw the seeded weighted sampler picks a source index; a source that ran
out early is skipped in subsequent draws rather than terminating the whole
stream, and drawing continues until every source is exhausted.  The choice
sequence produced by the seeded sampler from the weights is abstracted as
an explicit list of source indices. -/

/-- Modelled from the spec: one weighted-interleaving run over the given
choice sequence.  Returns the interleaved output and the final state of the
sources.  An index whose source is already exhausted produces no output
(the draw is skipped); the run stops early once every source is
exhausted. -/
def interleaveRun {α : Type} : List Nat → List (List α) → List α × List (List α)
  | [], srcs => ([], srcs)
  | c :: cs, srcs =>
    if srcs.all List.isEmpty then ([], srcs)
    else
      match srcs.getD c [] with
      | [] => interleaveRun cs srcs
      | x :: rest =>
        (x :: (interleaveRun cs (srcs.set c rest)).1,
          (interleaveRun cs (srcs.set c rest)).2)

/-- Total number of records left in a list of sources. -/
def totalLen {α : Type} (srcs : List (List α)) : Nat :=
  (srcs.map List.length).sum

theorem totalLen_set {α : Type} :
    ∀ (srcs : List (List α)) (c : Nat) (l : List α), c < srcs.length →
      totalLen (srcs.set c l) + (srcs.getD c []).length = totalLen srcs + l.length := by
  intro srcs
  induction srcs with
  | nil => intro c l h; simp at h
  | cons a tl ih =>
    intro c l h
    cases c with
    | zero => simp [totalLen]; omega
    | succ c =>
      simp only [List.set_cons_succ, totalLen, List.map_cons, List.sum_cons,
        List.getD_cons_succ]
      have := ih c l (by simpa using h)
      simp only [totalLen] at this
      omega

theorem totalLen_eq_zero_of_all_isEmpty {α : Type} (srcs : List (List α))
    (h : srcs.all List.isEmpty = true) : totalLen srcs = 0 := by
  induction srcs with
  | nil => rfl
  | cons a tl ih =>
    simp only [List.all_cons, Bool.and_eq_true, List.isEmpty_iff] at h
    simp [totalLen, h.1, List.length_eq_zero]
    have := ih h.2
    simpa [totalLen] using this

theorem getD_lt_length_of_ne_nil {α : Type} (srcs : List (List α)) (c : Nat)
    (h : srcs.getD c [] ≠ []) : c < srcs.length := by
  by_contra hc
  rw [not_lt] at hc
  rw [List.getD_eq_getElem?_getD, List.getElem?_eq_none hc] at h
  simp at h

/-- Nothing is lost by an interleaving run: the output length plus what
remains in the final state equals what the sources held initially. -/
theorem interleaveRun_conservation {α : Type} :
    ∀ (cs : List Nat) (srcs : List (List α)),
      (interleaveRun cs srcs).1.length + totalLen (interleaveRun cs srcs).2 =
        totalLen srcs := by
  intro cs
  induction cs with
  | nil => intro srcs; simp [interleaveRun]
  | cons c cs ih =>
    intro srcs
    by_cases hall : srcs.all List.isEmpty = true
    · simp [interleaveRun, hall]
    · simp only [interleaveRun, hall, if_neg, Bool.false_eq_true, not_false_eq_true,
        ite_false]
      cases hsrc : srcs.getD c [] with
      | nil => exact ih srcs
      | cons x rest =>
        have hc : c < srcs.length := by
          apply getD_lt_length_of_ne_nil srcs c
          rw [hsrc]
          simp
        have hset := totalLen_set srcs c rest hc
        rw [hsrc] at hset
        dsimp only
        simp only [List.length_cons] at hset ⊢
        have := ih (srcs.set c rest)
        omega

/-- C8: with sources of sizes 2 and 100, any interleaving run (whatever the
seeded weighted choice sequence is) that reaches the all-exhausted stopping
state outputs exactly 102 records: sources that run out early are skipped,
not allowed to terminate the stream. -/
theorem interleave_all_exhausted_total {α : Type} (cs : List Nat) (l1 l2 : List α)
    (h1 : l1.length = 2) (h2 : l2.length = 100)
    (hex : (interleaveRun cs [l1, l2]).2.all List.isEmpty = true) :
    (interleaveRun cs [l1, l2]).1.length = 102 := by
  have hcons := interleaveRun_conservation cs [l1, l2]
  have hzero := totalLen_eq_zero_of_all_isEmpty _ hex
  rw [hzero] at hcons
  simp only [totalLen, List.map_cons, List.map_nil, List.sum_cons, List.sum_nil, h1, h2]
    at hcons
  omega

/-- Witness for the interleaving theorem: a concrete choice sequence that
draws source 0 twice and source 1 a hundred times, exhausting both. -/
theorem interleave_all_exhausted_total_witness :
    (interleaveRun (List.replicate 2 0 ++ List.replicate 100 1)
        [List.range 2, List.range 100]).1.length = 102 :=
  interleave_all_exhausted_total (List.replicate 2 0 ++ List.replicate 100 1)
    (List.range 2) (List.range 100) (by simp) (by simp) (by decide)

/-! ### Text normalisation (`data.py`, `process_example`) -/

/-- The whitespace class of Python `str.strip`, restricted to the ASCII
whitespace characters (the rare Unicode space characters Python also
strips do not occur in this development). -/
def isPyWs (c : Char) : Bool :=
  c == ' ' || c == '\t' || c == '\n' || c == '\r' || c == '\x0b' || c == '\x0c'

/-- Model of a Python strip with the given character class: remove matching
characters from both ends. -/
def stripP (p : Char → Bool) (l : List Char) : List Char :=
  (l.dropWhile p).rdropWhile p

/-- Character-wise model of Python `str.lower`, covering ASCII letters and
the uppercase non-ASCII letters used in this development; identity on
every other character. -/
def pyLower (c : Char) : Char :=
  if 65 ≤ c.toNat && c.toNat ≤ 90 then Char.ofNat (c.toNat + 32)
  else if c = 'Å' then 'å'
  else if c = 'Æ' then 'æ'
  else if c = 'Ø' then 'ø'
  else if c = 'Ä' then 'ä'
  else if c = 'Ö' then 'ö'
  else if c = 'É' then 'é'
  else if c = 'Á' then 'á'
  else c

/-- Character-wise model of Python `str.upper`, the counterpart of
`pyLower` (Python's multi-character expansions such as `ß` do not occur in
this development). -/
def pyUpper (c : Char) : Char :=
  if 97 ≤ c.toNat && c.toNat ≤ 122 then Char.ofNat (c.toNat - 32)
  else if c = 'å' then 'Å'
  else if c = 'æ' then 'Æ'
  else if c = 'ø' then 'Ø'
  else if c = 'ä' then 'Ä'
  else if c = 'ö' then 'Ö'
  else if c = 'é' then 'É'
  else if c = 'á' then 'Á'
  else c

/-- Compatibility mapping of the compatibility characters occurring in this
development (the source comment mentions the fullwidth dash; U+00B5 MICRO
SIGN maps to U+03BC GREEK SMALL LETTER MU); identity elsewhere. -/
def nfkcCompat (c : Char) : Char :=
  if c = '－' then '-'
  else if c = 'µ' then 'μ'
  else c

/-- Canonical composition of a base letter with U+0301 COMBINING ACUTE
ACCENT, for the compositions that occur in this development. -/
def composeAcute (c : Char) : Option Char :=
  if c = 'a' then some 'á'
  else if c = 'e' then some 'é'
  else if c = 'i' then some 'í'
  else if c = 'o' then some 'ó'
  else if c = 'u' then some 'ú'
  else if c = 'n' then some 'ń'
  else none

/-- The canonical-composition pass over adjacent pairs. -/
def nfkcCompose : List Char → List Char
  | [] => []
  | [c] => [c]
  | c :: m :: rest =>
    if m = '́' then
      match composeAcute c with
      | some d => d :: nfkcCompose rest
      | none => c :: nfkcCompose (m :: rest)
    else c :: nfkcCompose (m :: rest)

/-- Partial model of `unicodedata.normalize("NFKC", ·)`: the compatibility
mapping followed by canonical composition.  It is the identity on
NFKC-stable strings, which covers every string appearing in the theorems
of this development. -/
def nfkc (l : List Char) : List Char :=
  nfkcCompose (l.map nfkcCompat)

/-- Scanning loop of `replaceList`, structurally recursive on a fuel
counter: each step consumes at least one character, so fuel equal to the
string length always suffices. -/
def replaceAux (pat rep : List Char) : Nat → List Char → List Char
  | _, [] => []
  | 0, l => l
  | fuel + 1, c :: rest =>
    if !pat.isEmpty && pat.isPrefixOf (c :: rest) then
      rep ++ replaceAux pat rep fuel (rest.drop (pat.length - 1))
    else
      c :: replaceAux pat rep fuel rest

/-- Model of Python `str.replace`: every non-overlapping occurrence of
`pat` is replaced by `rep`, scanning left to right.  All patterns used in
this development are nonempty; an empty pattern leaves the string
unchanged here. -/
def replaceList (pat rep l : List Char) : List Char :=
  replaceAux pat rep l.length l

/-- The `conversion_dict` literal of `process_dataset` (`data.py`, lines
462-497), in declaration order.  The last two keys are U+0301 COMBINING
ACUTE ACCENT and U+200B ZERO WIDTH SPACE. -/
def conversion_dict : List (String × String) :=
  [("aa", "å"), ("ğ", "g"), ("ñ", "n"), ("ń", "n"), ("è", "e"),
   ("kg", " kilo "), ("μg", " mikrogram "), ("-", " minus "), ("+", " plus "),
   ("μ", " mikro "), ("§", " paragraf "), ("%", " procent "), ("‰", " promille "),
   ("ú", "u"), ("ş", "s"), ("ê", "e"), ("ã", "a"), ("ë", "e"), ("ć", "c"),
   ("ä", "æ"), ("í", "i"), ("š", "s"), ("î", "i"), ("ě", "e"), ("ð", "d"),
   ("á", "a"), ("ó", "o"), ("þ", "th"), ("ı", "i"), ("ö", "ø"), ("ç", "c"),
   ("ș", "s"), ("́", " "), ("​", " ")]

/-- The conversion loop of `process_example` (`data.py`, lines 562-563):
the pairs are applied by `str.replace` in declaration order. -/
def applyConversions (doc : List Char) : List Char :=
  conversion_dict.foldl (fun d kv => replaceList kv.1.data kv.2.data d) doc

/-- Model of `re.sub(r" +", " ", doc)`: every run of spaces becomes a
single space. -/
def collapseSpaces : List Char → List Char
  | [] => []
  | [c] => [c]
  | a :: b :: rest =>
    if a == ' ' && b == ' ' then collapseSpaces (b :: rest)
    else a :: collapseSpaces (b :: rest)

/-- Model of `doc.split("\n")`. -/
def splitOnNewline : List Char → List (List Char)
  | [] => [[]]
  | c :: rest =>
    if c = '\n' then [] :: splitOnNewline rest
    else
      match splitOnNewline rest with
      | [] => [[c]]
      | l :: ls => (c :: l) :: ls

/-- The allowlist step of `process_example` (`data.py`, lines 566-575):
when `characters_to_keep` is given, its case follows the `lower_case`
option, the text is stripped, and every character outside the allowed set
plus space and pipe is replaced by a space. -/
def allowStage (characters_to_keep : Option (List Char)) (lower_case : Bool)
    (doc : List Char) : List Char :=
  match characters_to_keep with
  | none => doc
  | some ctk =>
    let ctk := if lower_case then ctk.map pyLower else ctk.map pyUpper ++ ctk.map pyLower
    (stripP isPyWs doc).map fun c => if (ctk ++ [' ', '|']).contains c then c else ' '

/-- Model of `"\n".join(lines)`. -/
def joinNl : List (List Char) → List Char
  | [] => []
  | [l] => l
  | l :: ls => l ++ '\n' :: joinNl ls

/-- The whitespace steps of `process_example` (`data.py`, lines 577-581):
collapse space runs, strip each line, then strip leading and trailing
newlines. -/
def whitespaceStage (doc : List Char) : List Char :=
  stripP (fun c => c == '\n')
    (joinNl ((splitOnNewline (collapseSpaces doc)).map (stripP isPyWs)))

/-- Embedding of `process_example` (`data.py`, lines 528-586), acting on
the text column: optional lower-casing, Unicode normalisation, the ordered
conversion table, the optional allowlist, and the whitespace cleanup. -/
def process_example (characters_to_keep : Option (List Char)) (lower_case : Bool)
    (text : List Char) : List Char :=
  whitespaceStage (allowStage characters_to_keep lower_case
    (applyConversions (nfkc (if lower_case then text.map pyLower else text))))

example : process_example none false "aae".data = "åe".data := by decide
example : process_example none true "aae".data = "åe".data := by decide
example : process_example none false "áa".data = "aa".data := by decide
example : process_example none false "aa".data = "å".data := by decide
example : process_example none false "50% - aaé".data = "50 procent minus åé".data := by
  decide
example : process_example (some "abc ".data) false "ab!c  d".data = "ab c".data := by
  decide

/-! ### Fixed-point analysis of the whitespace stage -/

/-- No two adjacent spaces anywhere in the string. -/
def SpacedOk (l : List Char) : Prop :=
  l.Chain' fun a b => ¬(a = ' ' ∧ b = ' ')

theorem head?_collapseSpaces (l : List Char) : (collapseSpaces l).head? = l.head? := by
  induction l using collapseSpaces.induct with
  | case1 => rfl
  | case2 c => rfl
  | case3 a b rest h ih =>
    rw [collapseSpaces, if_pos h, ih]
    simp only [Bool.and_eq_true, beq_iff_eq] at h
    simp [h.1, h.2]
  | case4 a b rest h ih =>
    rw [collapseSpaces, if_neg h]
    rfl

theorem spacedOk_collapseSpaces (l : List Char) : SpacedOk (collapseSpaces l) := by
  induction l using collapseSpaces.induct with
  | case1 => exact List.chain'_nil
  | case2 c => exact List.chain'_singleton c
  | case3 a b rest h ih => rw [collapseSpaces, if_pos h]; exact ih
  | case4 a b rest h ih =>
    rw [collapseSpaces, if_neg h]
    rw [SpacedOk, List.chain'_cons']
    refine ⟨?_, ih⟩
    intro y hy
    rw [head?_collapseSpaces] at hy
    simp only [List.head?_cons, Option.mem_def, Option.some.injEq] at hy
    subst hy
    intro hab
    apply h
    simp [hab.1, hab.2]

theorem collapseSpaces_eq_self (l : List Char) (h : SpacedOk l) : collapseSpaces l = l := by
  induction l using collapseSpaces.induct with
  | case1 => rfl
  | case2 c => rfl
  | case3 a b rest hc ih =>
    rw [SpacedOk, List.chain'_cons] at h
    simp only [Bool.and_eq_true, beq_iff_eq] at hc
    exact absurd ⟨hc.1, hc.2⟩ h.1
  | case4 a b rest hc ih =>
    rw [collapseSpaces, if_neg hc]
    rw [SpacedOk, List.chain'_cons] at h
    rw [ih h.2]

theorem mem_collapseSpaces (l : List Char) (c : Char) (h : c ∈ collapseSpaces l) :
    c ∈ l := by
  induction l using collapseSpaces.induct with
  | case1 => simp [collapseSpaces] at h
  | case2 d =>
    simp only [collapseSpaces] at h
    exact h
  | case3 a b rest hc ih =>
    rw [collapseSpaces, if_pos hc] at h
    exact List.mem_cons_of_mem a (ih h)
  | case4 a b rest hc ih =>
    rw [collapseSpaces, if_neg hc] at h
    rcases List.mem_cons.mp h with rfl | h
    · exact List.mem_cons_self _ _
    · exact List.mem_cons_of_mem a (ih h)

theorem stripP_infix_self (p : Char → Bool) (l : List Char) : stripP p l <:+: l := by
  obtain ⟨s, hs⟩ := List.dropWhile_suffix (l := l) p
  obtain ⟨t, ht⟩ := List.rdropWhile_prefix p (l.dropWhile p)
  refine ⟨s, t, ?_⟩
  rw [stripP, List.append_assoc, ht, hs]

theorem dropWhile_eq_self_of_stripP_eq_self (p : Char → Bool) (y : List Char)
    (h : stripP p y = y) : y.dropWhile p = y ∧ List.rdropWhile p y = y := by
  have hsub : y.dropWhile p <:+ y := List.dropWhile_suffix p
  have hpre : List.rdropWhile p (y.dropWhile p) <+: y.dropWhile p :=
    List.rdropWhile_prefix p (y.dropWhile p)
  have hlen : y.length ≤ (y.dropWhile p).length := by
    have h1 : (stripP p y).length ≤ (y.dropWhile p).length := by
      rw [stripP] at *
      exact hpre.length_le
    rw [h] at h1
    exact h1
  have hdw : y.dropWhile p = y := hsub.eq_of_length_le hlen
  refine ⟨hdw, ?_⟩
  rw [stripP, hdw] at h
  exact h

theorem stripP_idem (p : Char → Bool) (l : List Char) :
    stripP p (stripP p l) = stripP p l := by
  have hdw : (stripP p l).dropWhile p = stripP p l := by
    cases hsp : stripP p l with
    | nil => rfl
    | cons a as =>
      obtain ⟨t, ht⟩ := List.rdropWhile_prefix p (l.dropWhile p)
      rw [stripP] at hsp
      rw [hsp] at ht
      have hne : l.dropWhile p ≠ [] := by
        rw [← ht]
        simp
      have hhead := List.head_dropWhile_not p l hne
      have hheq : (l.dropWhile p).head hne = a := by
        have : l.dropWhile p = a :: (as ++ t) := by
          rw [← ht]
          simp
        simp [this]
      rw [hheq] at hhead
      rw [List.dropWhile_cons_of_neg (by simp [hhead])]
  rw [stripP, hdw, stripP, List.rdropWhile_idempotent]

theorem dropWhile_cons_eq_self (p : Char → Bool) (a : Char) (l : List Char)
    (h : (a :: l).dropWhile p = a :: l) : p a = false := by
  by_contra hc
  rw [Bool.not_eq_false] at hc
  rw [List.dropWhile_cons_of_pos hc] at h
  have := List.dropWhile_sublist (l := l) p
  have hlen := this.length_le
  rw [h] at hlen
  simp at hlen

theorem rdropWhile_getLast_false (p : Char → Bool) (q : List Char) (c : Char)
    (h : List.rdropWhile p q = q) (hl : q.getLast? = some c) : p c = false := by
  have hne : q ≠ [] := by
    intro he
    rw [he] at hl
    simp at hl
  have hnot := List.rdropWhile_eq_self_iff.mp h hne
  simp only [Bool.not_eq_true] at hnot
  rw [List.getLast?_eq_getLast q hne, Option.some.injEq] at hl
  rw [← hl]
  exact hnot


theorem splitOnNewline_ne_nil (s : List Char) : splitOnNewline s ≠ [] := by
  cases s with
  | nil => simp [splitOnNewline]
  | cons c rest =>
    rw [splitOnNewline]
    by_cases hc : c = '\n'
    · simp [hc]
    · rw [if_neg hc]
      cases splitOnNewline rest <;> simp

theorem joinNl_splitOnNewline (s : List Char) : joinNl (splitOnNewline s) = s := by
  induction s with
  | nil => rfl
  | cons c rest ih =>
    by_cases hc : c = '\n'
    · subst hc
      rw [splitOnNewline, if_pos rfl]
      cases hsp : splitOnNewline rest with
      | nil => exact absurd hsp (splitOnNewline_ne_nil rest)
      | cons l ls =>
        rw [hsp] at ih
        simp only [joinNl]
        simp [ih]
    · rw [splitOnNewline, if_neg hc]
      cases hsp : splitOnNewline rest with
      | nil => exact absurd hsp (splitOnNewline_ne_nil rest)
      | cons l ls =>
        rw [hsp] at ih
        cases ls with
        | nil =>
          simp only [joinNl] at ih ⊢
          simp [ih]
        | cons m ms =>
          simp only [joinNl] at ih ⊢
          rw [← ih]
          simp

theorem no_nl_of_mem_splitOnNewline (s : List Char) :
    ∀ p ∈ splitOnNewline s, '\n' ∉ p := by
  induction s with
  | nil =>
    intro p hp
    simp only [splitOnNewline, List.mem_singleton] at hp
    subst hp
    simp
  | cons c rest ih =>
    intro p hp
    by_cases hc : c = '\n'
    · rw [splitOnNewline, if_pos hc] at hp
      rcases List.mem_cons.mp hp with rfl | hp
      · simp
      · exact ih p hp
    · rw [splitOnNewline, if_neg hc] at hp
      cases hsp : splitOnNewline rest with
      | nil => exact absurd hsp (splitOnNewline_ne_nil rest)
      | cons l ls =>
        rw [hsp] at hp
        rcases List.mem_cons.mp hp with rfl | hp
        · intro hmem
          rcases List.mem_cons.mp hmem with h1 | h1
          · exact hc h1.symm
          · exact ih l (by rw [hsp]; exact List.mem_cons_self _ _) h1
        · exact ih p (by rw [hsp]; exact List.mem_cons_of_mem _ hp)

theorem splitOnNewline_of_no_nl (s : List Char) (h : '\n' ∉ s) : splitOnNewline s = [s] := by
  induction s with
  | nil => rfl
  | cons c rest ih =>
    have hc : ¬c = '\n' := fun he => h (he ▸ List.mem_cons_self c rest)
    rw [splitOnNewline, if_neg hc, ih fun hm => h (List.mem_cons_of_mem c hm)]

theorem splitOnNewline_append_nl (p t : List Char) (h : '\n' ∉ p) :
    splitOnNewline (p ++ '\n' :: t) = p :: splitOnNewline t := by
  induction p with
  | nil =>
    rw [List.nil_append, splitOnNewline, if_pos rfl]
  | cons c p' ih =>
    have hc : ¬c = '\n' := fun he => h (he ▸ List.mem_cons_self _ _)
    rw [List.cons_append, splitOnNewline, if_neg hc,
      ih fun hm => h (List.mem_cons_of_mem c hm)]

theorem splitOnNewline_joinNl (ps : List (List Char)) (hne : ps ≠ [])
    (h : ∀ p ∈ ps, '\n' ∉ p) : splitOnNewline (joinNl ps) = ps := by
  induction ps with
  | nil => exact absurd rfl hne
  | cons p qs ih =>
    cases qs with
    | nil =>
      simp only [joinNl]
      exact splitOnNewline_of_no_nl p (h p (List.mem_cons_self _ _))
    | cons q qs' =>
      simp only [joinNl]
      rw [splitOnNewline_append_nl _ _ (h p (List.mem_cons_self _ _))]
      rw [ih (by simp) fun r hr => h r (List.mem_cons_of_mem _ hr)]

theorem headPiece_isPre (s : List Char) :
    ∀ l, (splitOnNewline s).head? = some l → l <+: s := by
  induction s with
  | nil =>
    intro l h
    simp only [splitOnNewline, List.head?_cons, Option.some.injEq] at h
    subst h
    exact List.nil_prefix
  | cons c rest ih =>
    intro l h
    by_cases hc : c = '\n'
    · rw [splitOnNewline, if_pos hc] at h
      simp only [List.head?_cons, Option.some.injEq] at h
      subst h
      exact List.nil_prefix
    · rw [splitOnNewline, if_neg hc] at h
      cases hsp : splitOnNewline rest with
      | nil => exact absurd hsp (splitOnNewline_ne_nil rest)
      | cons l' ls =>
        rw [hsp] at h
        simp only [List.head?_cons, Option.some.injEq] at h
        subst h
        obtain ⟨t, ht⟩ := ih l' (by rw [hsp]; rfl)
        exact ⟨t, by rw [List.cons_append, ht]⟩

theorem infix_of_mem_splitOnNewline (s : List Char) :
    ∀ p, p ∈ splitOnNewline s → p <:+: s := by
  induction s with
  | nil =>
    intro p h
    simp only [splitOnNewline, List.mem_singleton] at h
    subst h
    exact ⟨[], [], rfl⟩
  | cons c rest ih =>
    intro p h
    by_cases hc : c = '\n'
    · rw [splitOnNewline, if_pos hc] at h
      rcases List.mem_cons.mp h with rfl | h
      · exact ⟨[], c :: rest, rfl⟩
      · obtain ⟨s₁, t₁, hst⟩ := ih p h
        exact ⟨c :: s₁, t₁, by rw [List.cons_append, List.cons_append, hst]⟩
    · rw [splitOnNewline, if_neg hc] at h
      cases hsp : splitOnNewline rest with
      | nil => exact absurd hsp (splitOnNewline_ne_nil rest)
      | cons l ls =>
        rw [hsp] at h
        rcases List.mem_cons.mp h with rfl | h
        · obtain ⟨t, ht⟩ := headPiece_isPre rest l (by rw [hsp]; rfl)
          exact ⟨[], t, by simp [ht]⟩
        · obtain ⟨s₁, t₁, hst⟩ :=
            ih p (by rw [hsp]; exact List.mem_cons_of_mem _ h)
          exact ⟨c :: s₁, t₁, by rw [List.cons_append, List.cons_append, hst]⟩

theorem mem_joinNl (ps : List (List Char)) (c : Char) (h : c ∈ joinNl ps) :
    (∃ p ∈ ps, c ∈ p) ∨ c = '\n' := by
  induction ps with
  | nil => simp [joinNl] at h
  | cons p qs ih =>
    cases qs with
    | nil =>
      simp only [joinNl] at h
      exact Or.inl ⟨p, List.mem_cons_self _ _, h⟩
    | cons q qs' =>
      simp only [joinNl] at h
      rcases List.mem_append.mp h with h1 | h1
      · exact Or.inl ⟨p, List.mem_cons_self _ _, h1⟩
      · rcases List.mem_cons.mp h1 with rfl | h1
        · exact Or.inr rfl
        · rcases ih h1 with ⟨r, hr, hcr⟩ | h2
          · exact Or.inl ⟨r, List.mem_cons_of_mem _ hr, hcr⟩
          · exact Or.inr h2

theorem chain'_joinNl (R : Char → Char → Prop) (ps : List (List Char))
    (hR1 : ∀ x, R x '\n') (hR2 : ∀ y, R '\n' y)
    (h : ∀ p ∈ ps, p.Chain' R) : (joinNl ps).Chain' R := by
  induction ps with
  | nil => exact List.chain'_nil
  | cons p qs ih =>
    cases qs with
    | nil =>
      simp only [joinNl]
      exact h p (List.mem_cons_self _ _)
    | cons q qs' =>
      simp only [joinNl]
      rw [List.chain'_append]
      refine ⟨h p (List.mem_cons_self _ _), ?_, ?_⟩
      · rw [List.chain'_cons']
        exact ⟨fun y _ => hR2 y, ih fun r hr => h r (List.mem_cons_of_mem _ hr)⟩
      · intro x _ y hy
        simp only [List.head?_cons, Option.mem_def, Option.some.injEq] at hy
        subst hy
        exact hR1 x

theorem splitOnNewline_snoc_nl (xs : List Char) :
    splitOnNewline (xs ++ ['\n']) = splitOnNewline xs ++ [[]] := by
  induction xs with
  | nil => rfl
  | cons c xs' ih =>
    by_cases hc : c = '\n'
    · rw [List.cons_append, splitOnNewline, if_pos hc, ih]
      rw [splitOnNewline, if_pos hc]
      rfl
    · rw [List.cons_append, splitOnNewline, if_neg hc, ih]
      rw [splitOnNewline, if_neg hc]
      cases hsp : splitOnNewline xs' with
      | nil => exact absurd hsp (splitOnNewline_ne_nil xs')
      | cons l ls => simp

/-- Every line of the string is fixed under whitespace stripping. -/
def LinesStripped (y : List Char) : Prop :=
  ∀ p ∈ splitOnNewline y, stripP isPyWs p = p

theorem linesStripped_cons_nl (w : List Char) :
    LinesStripped ('\n' :: w) ↔ LinesStripped w := by
  rw [LinesStripped, LinesStripped, splitOnNewline, if_pos rfl]
  constructor
  · intro h p hp
    exact h p (List.mem_cons_of_mem _ hp)
  · intro h p hp
    rcases List.mem_cons.mp hp with rfl | hp
    · rfl
    · exact h p hp

theorem linesStripped_snoc_nl (w : List Char) :
    LinesStripped (w ++ ['\n']) ↔ LinesStripped w := by
  rw [LinesStripped, LinesStripped, splitOnNewline_snoc_nl]
  constructor
  · intro h p hp
    exact h p (List.mem_append_left _ hp)
  · intro h p hp
    rcases List.mem_append.mp hp with hp | hp
    · exact h p hp
    · rw [List.mem_singleton] at hp
      subst hp
      rfl

theorem linesStripped_dropWhile_nl (w : List Char) (h : LinesStripped w) :
    LinesStripped (w.dropWhile fun c => c == '\n') := by
  induction w with
  | nil => simpa using h
  | cons c w' ih =>
    by_cases hc : c = '\n'
    · subst hc
      rw [List.dropWhile_cons_of_pos (by simp)]
      exact ih ((linesStripped_cons_nl w').mp h)
    · rw [List.dropWhile_cons_of_neg (by simp [hc])]
      exact h

theorem linesStripped_rdropWhile_nl (w : List Char) (h : LinesStripped w) :
    LinesStripped (List.rdropWhile (fun c => c == '\n') w) := by
  induction w using List.reverseRecOn with
  | nil => simpa using h
  | append_singleton xs c ih =>
    by_cases hc : c = '\n'
    · subst hc
      rw [List.rdropWhile_concat_pos _ _ _ (by simp)]
      exact ih ((linesStripped_snoc_nl xs).mp h)
    · rw [List.rdropWhile_concat_neg _ _ _ (by simp [hc])]
      exact h

theorem linesStripped_stripNl (w : List Char) (h : LinesStripped w) :
    LinesStripped (stripP (fun c => c == '\n') w) :=
  linesStripped_rdropWhile_nl _ (linesStripped_dropWhile_nl w h)

theorem whitespaceStage_eq_self (y : List Char) (h1 : SpacedOk y) (h2 : LinesStripped y)
    (h3 : stripP (fun c => c == '\n') y = y) : whitespaceStage y = y := by
  rw [whitespaceStage, collapseSpaces_eq_self y h1]
  have hmap : (splitOnNewline y).map (stripP isPyWs) = splitOnNewline y := by
    rw [List.map_congr_left h2]
    exact List.map_id _
  rw [hmap, joinNl_splitOnNewline, h3]

theorem spacedOk_whitespaceStage (x : List Char) : SpacedOk (whitespaceStage x) := by
  rw [whitespaceStage, SpacedOk]
  apply List.Chain'.infix ?hbig (stripP_infix_self _ _)
  apply chain'_joinNl
  · rintro a ⟨-, hsp⟩
    exact absurd hsp (by decide)
  · rintro a ⟨hsp, -⟩
    exact absurd hsp (by decide)
  · intro q hq
    rw [List.mem_map] at hq
    obtain ⟨p, hp, rfl⟩ := hq
    have hchain : (collapseSpaces x).Chain' fun a b => ¬(a = ' ' ∧ b = ' ') :=
      spacedOk_collapseSpaces x
    exact List.Chain'.infix hchain
      ((stripP_infix_self _ _).trans (infix_of_mem_splitOnNewline _ p hp))

theorem linesStripped_whitespaceStage (x : List Char) :
    LinesStripped (whitespaceStage x) := by
  rw [whitespaceStage]
  apply linesStripped_stripNl
  have hne : (splitOnNewline (collapseSpaces x)).map (stripP isPyWs) ≠ [] := by
    simp [splitOnNewline_ne_nil]
  have hnonl : ∀ r ∈ (splitOnNewline (collapseSpaces x)).map (stripP isPyWs),
      '\n' ∉ r := by
    intro r hr
    rw [List.mem_map] at hr
    obtain ⟨q, hq, rfl⟩ := hr
    intro hnl
    exact no_nl_of_mem_splitOnNewline _ q hq ((stripP_infix_self isPyWs q).subset hnl)
  rw [LinesStripped]
  intro p hp
  rw [splitOnNewline_joinNl _ hne hnonl] at hp
  rw [List.mem_map] at hp
  obtain ⟨q, hq, rfl⟩ := hp
  exact stripP_idem isPyWs q

theorem stripNl_whitespaceStage (x : List Char) :
    stripP (fun c => c == '\n') (whitespaceStage x) = whitespaceStage x := by
  rw [whitespaceStage]
  exact stripP_idem _ _

theorem whitespaceStage_idem (x : List Char) :
    whitespaceStage (whitespaceStage x) = whitespaceStage x :=
  whitespaceStage_eq_self _ (spacedOk_whitespaceStage x)
    (linesStripped_whitespaceStage x) (stripNl_whitespaceStage x)

theorem head?_mem_splitOnNewline (w : List Char) (c : Char) (hw : w.head? = some c)
    (hc : c ≠ '\n') : ∃ p, p ∈ splitOnNewline w ∧ p.head? = some c := by
  cases w with
  | nil => simp at hw
  | cons a w' =>
    simp only [List.head?_cons, Option.some.injEq] at hw
    subst hw
    rw [splitOnNewline, if_neg hc]
    cases hsp : splitOnNewline w' with
    | nil => exact absurd hsp (splitOnNewline_ne_nil w')
    | cons l ls => exact ⟨a :: l, List.mem_cons_self _ _, rfl⟩

theorem getLast?_mem_splitOnNewline (w : List Char) (hw : w ≠ []) :
    w.getLast? = some '\n' ∨
      ∃ p, p ∈ splitOnNewline w ∧ p ≠ [] ∧ p.getLast? = w.getLast? := by
  induction w with
  | nil => exact absurd rfl hw
  | cons c w' ih =>
    cases w' with
    | nil =>
      by_cases hc : c = '\n'
      · subst hc
        exact Or.inl rfl
      · right
        refine ⟨[c], ?_, by simp, rfl⟩
        rw [splitOnNewline, if_neg hc]
        simp [splitOnNewline]
    | cons d w'' =>
      have htrans : (c :: d :: w'').getLast? = (d :: w'').getLast? :=
        List.getLast?_cons_cons
      rcases ih (by simp) with hnl | ⟨p, hp, hpne, hplast⟩
      · left
        rw [htrans, hnl]
      · right
        by_cases hc : c = '\n'
        · refine ⟨p, ?_, hpne, by rw [htrans, hplast]⟩
          rw [splitOnNewline, if_pos hc]
          exact List.mem_cons_of_mem _ hp
        · cases hsp : splitOnNewline (d :: w'') with
          | nil => exact absurd hsp (splitOnNewline_ne_nil _)
          | cons l ls =>
            rw [hsp] at hp
            rcases List.mem_cons.mp hp with rfl | hp2
            · cases p with
              | nil => exact absurd rfl hpne
              | cons e p' =>
                refine ⟨c :: e :: p', ?_, by simp, ?_⟩
                · rw [splitOnNewline, if_neg hc, hsp]
                  exact List.mem_cons_self _ _
                · rw [List.getLast?_cons_cons, htrans]
                  exact hplast
            · refine ⟨p, ?_, hpne, by rw [htrans, hplast]⟩
              rw [splitOnNewline, if_neg hc, hsp]
              exact List.mem_cons_of_mem _ hp2

theorem stripWs_whitespaceStage (x : List Char) :
    stripP isPyWs (whitespaceStage x) = whitespaceStage x := by
  have hnlfix := stripNl_whitespaceStage x
  have hparts := dropWhile_eq_self_of_stripP_eq_self _ _ hnlfix
  have hlines := linesStripped_whitespaceStage x
  have hdw : (whitespaceStage x).dropWhile isPyWs = whitespaceStage x := by
    cases hws : whitespaceStage x with
    | nil => rfl
    | cons a y' =>
      have hne : a ≠ '\n' := by
        have h1 := hparts.1
        rw [hws] at h1
        have := dropWhile_cons_eq_self _ _ _ h1
        simpa using this
      obtain ⟨p, hp, hphead⟩ :=
        head?_mem_splitOnNewline (whitespaceStage x) a (by rw [hws]; rfl) hne
      have hpfix := hlines p hp
      have hpdw := (dropWhile_eq_self_of_stripP_eq_self _ _ hpfix).1
      cases p with
      | nil => simp at hphead
      | cons b p' =>
        simp only [List.head?_cons, Option.some.injEq] at hphead
        subst hphead
        have hba := dropWhile_cons_eq_self _ _ _ hpdw
        rw [List.dropWhile_cons_of_neg (by simp [hba])]
  have hrdw : List.rdropWhile isPyWs (whitespaceStage x) = whitespaceStage x := by
    cases hws : whitespaceStage x with
    | nil => simp [List.rdropWhile]
    | cons a y' =>
      rw [← hws]
      have hne : whitespaceStage x ≠ [] := by rw [hws]; simp
      rcases getLast?_mem_splitOnNewline (whitespaceStage x) hne with hnl | ⟨p, hp, hpne, hpl⟩
      · have h2 := hparts.2
        have := rdropWhile_getLast_false _ _ _ h2 hnl
        simp at this
      · have hpfix := hlines p hp
        have hprd := (dropWhile_eq_self_of_stripP_eq_self _ _ hpfix).2
        obtain ⟨c, hc⟩ : ∃ c, p.getLast? = some c := by
          cases hpl2 : p.getLast? with
          | none =>
            rw [List.getLast?_eq_getLast p hpne] at hpl2
            simp at hpl2
          | some c => exact ⟨c, rfl⟩
        have hcfalse := rdropWhile_getLast_false _ _ _ hprd hc
        rw [List.rdropWhile_eq_self_iff]
        intro hl
        have hwl : (whitespaceStage x).getLast? = some c := by rw [← hpl, hc]
        rw [List.getLast?_eq_getLast _ hl, Option.some.injEq] at hwl
        rw [hwl]
        simp [hcfalse]
  rw [stripP, hdw, hrdw]

theorem mem_whitespaceStage (z : List Char) (c : Char) (h : c ∈ whitespaceStage z) :
    c ∈ z ∨ c = '\n' := by
  rw [whitespaceStage] at h
  have h1 := (stripP_infix_self _ _).subset h
  rcases mem_joinNl _ c h1 with ⟨p, hp, hcp⟩ | hnl
  · rw [List.mem_map] at hp
    obtain ⟨q, hq, rfl⟩ := hp
    have h2 := (stripP_infix_self isPyWs q).subset hcp
    have h3 := (infix_of_mem_splitOnNewline _ q hq).subset h2
    exact Or.inl (mem_collapseSpaces z c h3)
  · exact Or.inr hnl

theorem mem_whitespaceStage_of_no_nl (z : List Char) (hz : '\n' ∉ z) (c : Char)
    (h : c ∈ whitespaceStage z) : c ∈ z := by
  rw [whitespaceStage] at h
  have hznl : '\n' ∉ collapseSpaces z := fun hm => hz (mem_collapseSpaces z _ hm)
  rw [splitOnNewline_of_no_nl _ hznl] at h
  simp only [List.map_cons, List.map_nil, joinNl] at h
  have h1 := (stripP_infix_self _ _).subset h
  have h2 := (stripP_infix_self isPyWs _).subset h1
  exact mem_collapseSpaces z c h2

theorem allowStage_whitespaceStage_fixed (ctk : List Char) (lc : Bool) (x : List Char) :
    allowStage (some ctk) lc (whitespaceStage (allowStage (some ctk) lc x)) =
      whitespaceStage (allowStage (some ctk) lc x) := by
  set ctk2 := if lc then ctk.map pyLower else ctk.map pyUpper ++ ctk.map pyLower
    with hctk2
  have hAdef : ∀ d : List Char, allowStage (some ctk) lc d =
      (stripP isPyWs d).map fun c =>
        if (ctk2 ++ [' ', '|']).contains c then c else ' ' := by
    intro d
    rw [allowStage, hctk2]
  have hallowed : ∀ d : List Char, ∀ c ∈ allowStage (some ctk) lc d,
      (ctk2 ++ [' ', '|']).contains c = true := by
    intro d c hc
    rw [hAdef] at hc
    rw [List.mem_map] at hc
    obtain ⟨b, hb, rfl⟩ := hc
    by_cases hbc : (ctk2 ++ [' ', '|']).contains b = true
    · rw [if_pos hbc]
      exact hbc
    · rw [if_neg hbc]
      simp [List.contains]
  set y := whitespaceStage (allowStage (some ctk) lc x) with hy
  have hstrip : stripP isPyWs y = y := by
    rw [hy]
    exact stripWs_whitespaceStage _
  have hally : ∀ c ∈ y, (ctk2 ++ [' ', '|']).contains c = true := by
    intro c hcy
    by_cases hnl : (ctk2 ++ [' ', '|']).contains '\n' = true
    · rcases mem_whitespaceStage _ c (hy ▸ hcy) with hmem | rfl
      · exact hallowed _ c hmem
      · exact hnl
    · have hnomem : '\n' ∉ allowStage (some ctk) lc x := fun hm => hnl (hallowed _ _ hm)
      exact hallowed _ c (mem_whitespaceStage_of_no_nl _ hnomem c (hy ▸ hcy))
  rw [hAdef y, hstrip]
  have hid : ∀ c ∈ y, (if (ctk2 ++ [' ', '|']).contains c then c else ' ') = c := by
    intro c hcy
    rw [if_pos (hally c hcy)]
  rw [List.map_congr_left hid]
  exact List.map_id _

/-- C3 (amended): text normalisation is idempotent for every input whose
once-normalised text is left unchanged by the lower-casing, the Unicode
normalisation and the conversion-table pass; the whitespace and allowlist
stages never break idempotence. -/
theorem process_example_idem_of_stage_fixed (characters_to_keep : Option (List Char))
    (lower_case : Bool) (t : List Char)
    (hlow : lower_case = true →
      (process_example characters_to_keep lower_case t).map pyLower =
        process_example characters_to_keep lower_case t)
    (hnfkc : nfkc (process_example characters_to_keep lower_case t) =
      process_example characters_to_keep lower_case t)
    (hconv : applyConversions (process_example characters_to_keep lower_case t) =
      process_example characters_to_keep lower_case t) :
    process_example characters_to_keep lower_case
        (process_example characters_to_keep lower_case t) =
      process_example characters_to_keep lower_case t := by
  set y := process_example characters_to_keep lower_case t with hy
  have hl : (if lower_case then y.map pyLower else y) = y := by
    cases lower_case
    · rfl
    · exact hlow rfl
  rw [process_example, hl, hnfkc, hconv]
  cases characters_to_keep with
  | none =>
    show whitespaceStage (allowStage none lower_case y) = y
    rw [show allowStage none lower_case y = y from rfl, hy, process_example]
    exact whitespaceStage_idem _
  | some ctk =>
    rw [hy, process_example, allowStage_whitespaceStage_fixed]
    exact whitespaceStage_idem _

set_option maxRecDepth 8192 in
/-- C3 counterexample: normalising "áa" once yields "aa" (the
acute-a rule fires after the digraph rule has already been checked), and a
second application folds "aa" to "å", so process_example is not idempotent
for every input. -/
theorem process_example_not_idempotent :
    process_example none false (process_example none false "áa".data) ≠
      process_example none false "áa".data := by
  decide

set_option maxRecDepth 8192 in
/-- Witness for the amended idempotence theorem at a concrete input mixing
the digraph, symbols and an accented letter, with no allowlist and no
lower-casing. -/
theorem process_example_idem_of_stage_fixed_witness :
    process_example none false
        (process_example none false "aaé §3 - 50%".data) =
      process_example none false "aaé §3 - 50%".data :=
  process_example_idem_of_stage_fixed none false "aaé §3 - 50%".data
    (by decide) (by decide) (by decide)

set_option maxRecDepth 8192 in
/-- C4: normalising "aae" with the literal conversion table yields "åe"
under both lower-casing settings (no allowlist): the substitution pairs
are applied in declaration order, every literal occurrence replaced, so
the digraph rule fires before any later rule could interfere. -/
theorem process_example_aae :
    process_example none true "aae".data = "åe".data ∧
      process_example none false "aae".data = "åe".data := by
  constructor
  · decide
  · decide
